import Mathlib

/-!
Verification of `src/utils/compendium_manager.py`: the reduce / merge / sort
tree transforms over JSON-like documents.

JSON values are modelled by the inductive `JValue`; Python dicts (which
preserve insertion order and have unique keys) are association lists
`List (String × JValue)`, Python lists are `List JValue`.  In-place mutation
in the Python source is modelled by functions returning the new value.  The
mutually recursive merge (whose recursion terminates because the depth of the
destination tree never grows) is given an explicit fuel parameter: for any
fuel at least the depth of the destination the Lean function computes exactly
what the Python code computes, and the shape/identity theorems below are
proved for every fuel value, hence in particular for sufficient fuel.
-/

/-- A JSON value: object (ordered association list, as a Python `dict`),
array, string, number, boolean or null. -/
inductive JValue where
  | obj : List (String × JValue) → JValue
  | arr : List JValue → JValue
  | str : String → JValue
  | num : Int → JValue
  | bool : Bool → JValue
  | null : JValue
deriving Repr

/-- `isinstance(v, dict)` -/
def JValue.isObj : JValue → Bool
  | .obj _ => true
  | _ => false

/-- `isinstance(v, list)` -/
def JValue.isArr : JValue → Bool
  | .arr _ => true
  | _ => false

/-- A scalar: neither a dict nor a list. -/
def JValue.isScalar (v : JValue) : Bool := !v.isObj && !v.isArr

/-- Equality test used only between scalar values. -/
def scalarEq : JValue → JValue → Bool
  | .str a, .str b => a == b
  | .num a, .num b => a == b
  | .bool a, .bool b => a == b
  | .null, .null => true
  | _, _ => false

/-- `d.get(k)` on a Python dict modelled as an association list
(first occurrence wins; Python dicts have unique keys). -/
def jGet : JValue → String → Option JValue
  | .obj kvs, k => List.lookup k kvs
  | _, _ => none

/-- `d[k] = v` on a Python dict: overwrite in place (keeping the key's
position) when the key exists, append otherwise. Generic in the value type so
the same model serves the `{str: int}` lookup tables. -/
def pyInsert {β : Type} : List (String × β) → String → β → List (String × β)
  | [], k, v => [(k, v)]
  | (k', v') :: rest, k, v =>
    if k' == k then (k', v) :: rest else (k', v') :: pyInsert rest k v

/-- `k in d` on a Python dict. -/
def containsKey (l : List (String × JValue)) (k : String) : Bool :=
  (List.lookup k l).isSome

/-- `d[k]` when the key is known present (the `.null` default is never
reached at the call sites, which test `containsKey` first). -/
def lookupD (l : List (String × JValue)) (k : String) : JValue :=
  (List.lookup k l).getD .null

-- ------------- Config -------------
/-- `KEEP_KEYS = {"label", "_id", "name", "tokenName", "description", "notes"}` -/
def KEEP_KEYS : List String := ["label", "_id", "name", "tokenName", "description", "notes"]

/-- `TRANSLATABLE_KEYS = KEEP_KEYS` -/
def TRANSLATABLE_KEYS : List String := KEEP_KEYS

/-- `TOP_LEVEL_KEYS_ORDER = ["label", "mapping", "folders", "entries"]` -/
def TOP_LEVEL_KEYS_ORDER : List String := ["label", "mapping", "folders", "entries"]

/-- `KEYS_TO_SORT_IMMEDIATELY = {"folders", "entries"}` -/
def KEYS_TO_SORT_IMMEDIATELY : List String := ["folders", "entries"]

/-- The filter `x not in (None, {}, [])` applied to `clean_entry` results. -/
def isEmptyish : JValue → Bool
  | .null => true
  | .obj [] => true
  | .arr [] => true
  | _ => false

-- -------- Reduce helpers ----------

mutual
/-- `clean_entry(obj)`: reduce each entry recursively, keeping only the keys
in `KEEP_KEYS` (verbatim), recursing into dict/list values at other keys and
keeping the cleaned result only when non-empty; scalars return `None`
(modelled as `.null`). -/
def clean_entry : JValue → JValue
  | .obj kvs => .obj (cleanObj kvs)
  | .arr xs => .arr (cleanArr xs)
  | _ => .null

/-- The dict branch of `clean_entry`: the loop over `obj.items()`. -/
def cleanObj : List (String × JValue) → List (String × JValue)
  | [] => []
  | (k, v) :: rest =>
    if KEEP_KEYS.contains k then (k, v) :: cleanObj rest
    else
      match v with
      | .obj kvs =>
        let c := JValue.obj (cleanObj kvs)
        if isEmptyish c then cleanObj rest else (k, c) :: cleanObj rest
      | .arr xs =>
        let c := JValue.arr (cleanArr xs)
        if isEmptyish c then cleanObj rest else (k, c) :: cleanObj rest
      | _ => cleanObj rest

/-- The list branch of `clean_entry`: clean every element, then drop the
cleaned elements that are `None`, `{}` or `[]`. -/
def cleanArr : List JValue → List JValue
  | [] => []
  | x :: xs =>
    let c := clean_entry x
    if isEmptyish c then cleanArr xs else c :: cleanArr xs
end

mutual
/-- `reduce_entries(data)`: apply `clean_entry` only inside the values of an
`entries` dict while preserving the outer structure; non-dict data (including
lists) is returned unchanged. -/
def reduce_entries : JValue → JValue
  | .obj kvs => .obj (reduceObj kvs)
  | v => v

/-- The loop over `data.items()` in `reduce_entries`: `entries`-keyed dicts
get their values cleaned, other dict/list values are recursed into, scalars
pass through. -/
def reduceObj : List (String × JValue) → List (String × JValue)
  | [] => []
  | (k, v) :: rest =>
    (match v, k == "entries" with
     | .obj es, true => (k, JValue.obj (es.map fun kv => (kv.1, clean_entry kv.2)))
     | .obj es, false => (k, reduce_entries (.obj es))
     | .arr xs, _ => (k, reduce_entries (.arr xs))
     | v, _ => (k, v)) :: reduceObj rest
end

mutual
/-- `has_entries_nonempty(data)`: `True` iff somewhere in the tree a dict has
a non-empty dict under its `entries` key. -/
def has_entries_nonempty : JValue → Bool
  | .obj kvs =>
    (match List.lookup "entries" kvs with
     | some (.obj es) => !es.isEmpty
     | _ => false) || henObj kvs
  | .arr xs => henArr xs
  | _ => false

/-- `any(has_entries_nonempty(v) for v in data.values())` -/
def henObj : List (String × JValue) → Bool
  | [] => false
  | (_, v) :: rest => has_entries_nonempty v || henObj rest

/-- `any(has_entries_nonempty(i) for i in data)` -/
def henArr : List JValue → Bool
  | [] => false
  | x :: xs => has_entries_nonempty x || henArr xs
end

mutual
/-- `has_translatable_list(data)`: `True` iff the tree holds a list with a
dict element carrying a `KEEP_KEYS` key other than `_id` (or, transitively,
such a list inside a dict element of a list). -/
def has_translatable_list : JValue → Bool
  | .obj kvs => htlObj kvs
  | .arr xs => htlArr xs
  | _ => false

/-- The dict branch: `any` over the values. -/
def htlObj : List (String × JValue) → Bool
  | [] => false
  | (_, v) :: rest => has_translatable_list v || htlObj rest

/-- The list branch: only dict items are inspected (a non-dict list item is
skipped, not recursed into). -/
def htlArr : List JValue → Bool
  | [] => false
  | x :: xs =>
    (match x with
     | .obj kvs =>
       KEEP_KEYS.any (fun k => containsKey kvs k && k != "_id") || has_translatable_list (.obj kvs)
     | _ => false) || htlArr xs
end

-- -------- Merge helpers -----------

/-- One iteration of the loop in `copy_string_fields`: skip `_id`, and copy
the field when its value is a string and its key is translatable. -/
def copyStep (d : List (String × JValue)) (kv : String × JValue) : List (String × JValue) :=
  match kv.1 == "_id", kv.2, TRANSLATABLE_KEYS.contains kv.1 with
  | false, .str s, true => pyInsert d kv.1 (.str s)
  | _, _, _ => d

/-- `copy_string_fields(dst, src)`: copy every string-valued field of `src`
in `TRANSLATABLE_KEYS`, except `_id`, into `dst` (overwriting in place, or
appending when the key is new). -/
def copy_string_fields (dst src : List (String × JValue)) : List (String × JValue) :=
  src.foldl copyStep dst

/-- The indices of the dict elements of a list:
`[i for i, it in enumerate(lst) if isinstance(it, dict)]`. -/
def dictIdx (lst : List JValue) : List Nat :=
  (List.range lst.length).filter fun i => (lst.getD i .null).isObj

/-- `lst[i].get(field)` when it is a string, else `None`. -/
def fieldStrAt (lst : List JValue) (i : Nat) (field : String) : Option String :=
  match jGet (lst.getD i .null) field with
  | some (.str s) => some s
  | _ => none

/-- The lookup tables of `merge_lists`:
`{src_list[i].get(field): i for i in src_idx if isinstance(src_list[i].get(field), str)}`.
A Python dict comprehension assigns in order, so on duplicate keys the value
of the latest occurrence stands. -/
def buildLookup (src : List JValue) (field : String) : List (String × Nat) :=
  (dictIdx src).foldl (fun m i =>
    match fieldStrAt src i field with
    | some s => pyInsert m s i
    | none => m) []

/-- The per-key step of `merge_translations`'s loop over `list(dst.items())`:
same-key dict/dict pairs are merged recursively (`mt`), same-key list/list
pairs reconciled (`ml`); every other key keeps its value.  `mt`/`ml` stand
for the recursive calls, passed in by `merge_translations`. -/
def mergeKeyStep (skvs : List (String × JValue)) (mt : JValue → JValue → JValue)
    (ml : List JValue → List JValue → List JValue) (kv : String × JValue) : String × JValue :=
  match kv.2, List.lookup kv.1 skvs with
  | .obj dv, some (.obj sv) => (kv.1, mt (.obj dv) (.obj sv))
  | .arr dv, some (.arr sv) => (kv.1, JValue.arr (ml dv sv))
  | _, _ => kv

/-- The cross-merge step of `merge_translations`: each list value of the
destination is reconciled, in order, with every list value of the source. -/
def crossStep (srcLists : List (List JValue))
    (ml : List JValue → List JValue → List JValue) (kv : String × JValue) : String × JValue :=
  match kv.2 with
  | .arr dv => (kv.1, JValue.arr (srcLists.foldl (fun cur sl => ml cur sl) dv))
  | _ => kv

/-- One step of pass 1 / pass 2 of `merge_lists` (the two passes are the same
loop, reading `_id` resp. `name` from the current destination element and
consulting the corresponding lookup table `by_tab`): merge and consume when
the matched source index is not yet consumed. -/
def matchPassStep (src : List JValue) (by_tab : List (String × Nat)) (field : String)
    (mt : JValue → JValue → JValue)
    (st : List JValue × List Nat × List (Nat × Nat)) (di : Nat) :
    List JValue × List Nat × List (Nat × Nat) :=
  match jGet (st.1.getD di .null) field with
  | some (.str sid) =>
    match List.lookup sid by_tab with
    | some si =>
      if si ∈ st.2.1 then st
      else (st.1.set di (mt (st.1.getD di .null) (src.getD si .null)),
            st.2.1 ++ [si], st.2.2 ++ [(di, si)])
    | none => st
  | _ => st

/-- One step of pass 3 of `merge_lists` (positional fallback): merge the
paired elements and consume the source index. -/
def zipPassStep (src : List JValue) (mt : JValue → JValue → JValue)
    (st : List JValue × List Nat × List (Nat × Nat)) (p : Nat × Nat) :
    List JValue × List Nat × List (Nat × Nat) :=
  (st.1.set p.1 (mt (st.1.getD p.1 .null) (src.getD p.2 .null)),
   st.2.1 ++ [p.2], st.2.2 ++ [p])

mutual
/-- `merge_translations(dst, src)` (in-place in Python; here the new `dst` is
returned).  Copies translatable string fields, recursively merges same-key
dict/dict and list/list pairs, then cross-merges every list value of `dst`
with every list value of `src`.  The Python guard `dl is not sl` is always
true there because `dst` and `src` are loaded from different files and share
no objects; in this model of tree-shaped values it is dropped.  `fuel`
bounds the recursion depth; any fuel at least the depth of `dst` yields the
Python behaviour (merging never deepens the destination). -/
def merge_translations : Nat → JValue → JValue → JValue
  | 0, d, _ => d
  | fuel+1, d, s =>
    match d, s with
    | .obj dkvs, .obj skvs =>
      let afterCopy := copy_string_fields dkvs skvs
      let afterRec := afterCopy.map
        (mergeKeyStep skvs (fun a b => merge_translations fuel a b)
          (fun a b => (mergeListsCore fuel a b).1))
      let srcLists := skvs.filterMap fun kv =>
        match kv.2 with
        | .arr sv => some sv
        | _ => none
      .obj (afterRec.map (crossStep srcLists (fun a b => (mergeListsCore fuel a b).1)))
    | _, _ => d

/-- `merge_lists(dst_list, src_list)` together with its matching trace: the
result list, the consumed source indices (`used_src`, in consumption order)
and the merge pairs (destination index, source index) in merge order.
Pass 1 matches by `_id`, pass 2 by `name` (read from the current, possibly
already merged, destination element), pass 3 pairs the destination dict
elements positionally with the still unconsumed source dict elements. -/
def mergeListsCore : Nat → List JValue → List JValue → List JValue × List Nat × List (Nat × Nat)
  | 0, dst, _ => (dst, [], [])
  | fuel+1, dst, src =>
    let dst_idx := dictIdx dst
    let src_idx := dictIdx src
    let by_id := buildLookup src "_id"
    let by_name := buildLookup src "name"
    let st1 := dst_idx.foldl
      (matchPassStep src by_id "_id" (fun a b => merge_translations fuel a b)) (dst, [], [])
    let st2 := dst_idx.foldl
      (matchPassStep src by_name "name" (fun a b => merge_translations fuel a b)) st1
    let rem_dst := dst_idx.filter fun di => (st2.1.getD di .null).isObj
    let rem_src := src_idx.filter fun si => si ∉ st2.2.1
    (rem_dst.zip rem_src).foldl
      (zipPassStep src (fun a b => merge_translations fuel a b)) st2
end

/-- `merge_lists(dst_list, src_list)`: the merged destination list. -/
def merge_lists (fuel : Nat) (dst src : List JValue) : List JValue :=
  (mergeListsCore fuel dst src).1

-- -------- Sort helpers ------------

/-- Lexicographic comparison of strings as lists of characters, by Unicode
code point: exactly Python's `<=` on `str`. -/
def strLeB : List Char → List Char → Bool
  | [], _ => true
  | _ :: _, [] => false
  | a :: as, b :: bs =>
    if a.toNat < b.toNat then true
    else if b.toNat < a.toNat then false
    else strLeB as bs

/-- The comparison `key=lambda item: item[0]` of `sort_immediate_keys`. -/
def keyLE (a b : String × JValue) : Prop := strLeB a.1.data b.1.data = true

instance : DecidableRel keyLE := fun _ _ => inferInstanceAs (Decidable (_ = true))

/-- `sort_immediate_keys(data)`: sort only the first-level keys, keeping
values intact (`sorted(data.items(), key=lambda item: item[0])`; Python's
sort is stable, as is insertion sort). -/
def sort_immediate_keys (kvs : List (String × JValue)) : List (String × JValue) :=
  List.insertionSort keyLE kvs

/-- The conditional in `partial_sort_json`:
`sort_immediate_keys(value) if key in KEYS_TO_SORT_IMMEDIATELY and isinstance(value, dict) else value`. -/
def maybeSortVal (key : String) (value : JValue) : JValue :=
  if KEYS_TO_SORT_IMMEDIATELY.contains key then
    match value with
    | .obj kvs => .obj (sort_immediate_keys kvs)
    | _ => value
  else value

/-- `partial_sort_json(data)`: emit the keys of `TOP_LEVEL_KEYS_ORDER` that
are present, in that order (inner-sorting `folders`/`entries` dict values),
then every remaining key in its original relative order. -/
def partial_sort_json (data : List (String × JValue)) : List (String × JValue) :=
  let phaseA := TOP_LEVEL_KEYS_ORDER.foldl (fun acc key =>
    if containsKey data key then acc ++ [(key, maybeSortVal key (lookupD data key))] else acc) []
  data.foldl (fun acc kv =>
    if TOP_LEVEL_KEYS_ORDER.contains kv.1 then acc else acc ++ [kv]) phaseA

-- -------- Reduce / merge pipelines ----------

mutual
/-- Structural equality of JSON values. -/
def jeq : JValue → JValue → Bool
  | .obj a, .obj b => jeqObj a b
  | .arr a, .arr b => jeqArr a b
  | .str a, .str b => a == b
  | .num a, .num b => a == b
  | .bool a, .bool b => a == b
  | .null, .null => true
  | _, _ => false

/-- Structural equality of objects, field by field. -/
def jeqObj : List (String × JValue) → List (String × JValue) → Bool
  | [], [] => true
  | (k, v) :: a, (k', v') :: b => k == k' && jeq v v' && jeqObj a b
  | _, _ => false

/-- Structural equality of arrays, element by element. -/
def jeqArr : List JValue → List JValue → Bool
  | [], [] => true
  | x :: a, y :: b => jeq x y && jeqArr a b
  | _, _ => false
end

mutual
/-- The canonical form under `json.dumps(..., sort_keys=True)`: every
object's keys sorted; two values have equal dumps iff their canonical forms
are structurally equal. -/
def canon : JValue → JValue
  | .obj kvs => .obj (List.insertionSort keyLE (canonObj kvs))
  | .arr xs => .arr (canonArr xs)
  | v => v

/-- Canonicalise each field value of an object. -/
def canonObj : List (String × JValue) → List (String × JValue)
  | [] => []
  | (k, v) :: rest => (k, canon v) :: canonObj rest

/-- Canonicalise each element of an array. -/
def canonArr : List JValue → List JValue
  | [] => []
  | x :: xs => canon x :: canonArr xs
end

/-- `has_reduction(original, reduced)`:
`json.dumps(original, sort_keys=True) != json.dumps(reduced, sort_keys=True)`,
i.e. the two trees differ up to object-key ordering. -/
def has_reduction (original reduced : JValue) : Bool :=
  !jeq (canon original) (canon reduced)

/-- The per-file decision of `reduce_directory`: skip (produce no companion)
when no non-empty `entries` dict exists, skip when no translatable list
exists, reduce, and write the companion only when it differs from the
original. -/
def reduce_decision (data : JValue) : Option JValue :=
  if !has_entries_nonempty data then none
  else if !has_translatable_list data then none
  else
    let reduced := reduce_entries data
    if has_reduction data reduced then some reduced else none

/-- The per-file merge of `merge_directory`, given the parsed original and
translated documents (both top-level dicts): copy the translatable top-level
string fields, then, when both documents hold an `entries` dict, match each
original entry record against the translated ones — by entry key, then by
the original record's `name` used as an entry key, then by the original
record's `name` against the translated records' inner `name` field — and
merge each match; the updated original is written back (`some`), while
documents without both `entries` dicts are skipped (`none`). -/
def merge_document (fuel : Nat) (original translated : List (String × JValue)) :
    Option (List (String × JValue)) :=
  let o1 := copy_string_fields original translated
  match List.lookup "entries" o1, List.lookup "entries" translated with
  | some (.obj oes), some (.obj tes) =>
    let t_by_key := tes.filter fun kv => kv.2.isObj
    let t_by_inner_name := tes.foldl (fun acc kv =>
      match kv.2 with
      | .obj tv =>
        match List.lookup "name" tv with
        | some (.str nm) => pyInsert acc nm (JValue.obj tv)
        | _ => acc
      | _ => acc) []
    let oes' := oes.map fun kv =>
      match kv.2 with
      | .obj ov =>
        let t1 := List.lookup kv.1 t_by_key
        let t2 := match t1 with
          | some tv => some tv
          | none =>
            match List.lookup "name" ov with
            | some (.str onm) => List.lookup onm t_by_key
            | _ => none
        let t3 := match t2 with
          | some tv => some tv
          | none =>
            match List.lookup "name" ov with
            | some (.str onm) => List.lookup onm t_by_inner_name
            | _ => none
        match t3 with
        | some tv => (kv.1, merge_translations fuel (.obj ov) tv)
        | none => kv
      | _ => kv
    some (pyInsert o1 "entries" (.obj oes'))
  | _, _ => none

-- -------- Leaf paths (for the reduction-subset property) ----------

mutual
/-- `leafAt p l v`: the scalar `l` occurs in `v` at the key path `p` (the
sequence of object keys from the root; array levels are transparent — an
array holds a leaf at `p` when one of its elements does). -/
def leafAt : List String → JValue → JValue → Bool
  | p, l, .obj kvs => leafAtObj p l kvs
  | p, l, .arr xs => leafAtArr p l xs
  | p, l, v => p.isEmpty && scalarEq l v

/-- Leaf search through an object's fields. -/
def leafAtObj : List String → JValue → List (String × JValue) → Bool
  | _, _, [] => false
  | p, l, (k, v) :: rest =>
    (match p with
     | k' :: p' => k == k' && leafAt p' l v
     | [] => false) || leafAtObj p l rest

/-- Leaf search through an array's elements. -/
def leafAtArr : List String → JValue → List JValue → Bool
  | _, _, [] => false
  | p, l, x :: xs => leafAt p l x || leafAtArr p l xs
end

-- ==================== General helper lemmas ====================

/-- A fold whose step keeps an invariant keeps it over the whole list. -/
theorem foldl_inv {σ β : Type} (P : σ → Prop) (f : σ → β → σ) :
    ∀ (l : List β) (init : σ), P init → (∀ s b, P s → P (f s b)) → P (l.foldl f init)
  | [], _, h, _ => h
  | b :: l, init, h, hstep => foldl_inv P f l (f init b) (hstep init b h) hstep

theorem lookup_cons_ne (k : String) (v : JValue) (rest : List (String × JValue))
    (hbe : ("entries" == k) = false) :
    List.lookup "entries" ((k, v) :: rest) = List.lookup "entries" rest := by
  rw [List.lookup, hbe]

theorem lookup_reduceObj (kvs : List (String × JValue)) (es : List (String × JValue))
    (h : List.lookup "entries" kvs = some (.obj es)) :
    List.lookup "entries" (reduceObj kvs) =
      some (.obj (es.map fun kv => (kv.1, clean_entry kv.2))) := by
  induction kvs with
  | nil => simp [List.lookup] at h
  | cons kv rest ih =>
    obtain ⟨k, v⟩ := kv
    rw [List.lookup] at h
    cases hbe : ("entries" == k) with
    | true =>
      have hke : "entries" = k := eq_of_beq hbe
      rw [hbe] at h
      injection h with h
      subst h
      subst hke
      rfl
    | false =>
      rw [hbe] at h
      have step : List.lookup "entries" (reduceObj ((k, v) :: rest)) =
          List.lookup "entries" (reduceObj rest) := by
        cases v with
        | obj a =>
          cases hkk : (k == "entries") with
          | true =>
            rw [eq_of_beq hkk] at hbe
            simp at hbe
          | false =>
            rw [reduceObj.eq_3 _ _ _ hkk]
            exact lookup_cons_ne _ _ _ hbe
        | arr a =>
          rw [reduceObj.eq_4]
          exact lookup_cons_ne _ _ _ hbe
        | str a =>
          rw [reduceObj.eq_5 k rest (.str a) (fun _ h => nomatch h) (fun _ h _ => nomatch h) (fun _ h _ => nomatch h)]
          exact lookup_cons_ne _ _ _ hbe
        | num a =>
          rw [reduceObj.eq_5 k rest (.num a) (fun _ h => nomatch h) (fun _ h _ => nomatch h) (fun _ h _ => nomatch h)]
          exact lookup_cons_ne _ _ _ hbe
        | bool a =>
          rw [reduceObj.eq_5 k rest (.bool a) (fun _ h => nomatch h) (fun _ h _ => nomatch h) (fun _ h _ => nomatch h)]
          exact lookup_cons_ne _ _ _ hbe
        | null =>
          rw [reduceObj.eq_5 k rest .null (fun _ h => nomatch h) (fun _ h _ => nomatch h) (fun _ h _ => nomatch h)]
          exact lookup_cons_ne _ _ _ hbe
      rw [step]
      exact ih h

-- ==================== C7: reduction is a (non-null) leaf filter ====================

/-- Structural strong induction over `JValue`, recursing through the nested
lists. -/
theorem JValue.strongInduction (P : JValue → Prop)
    (hstr : ∀ t, P (.str t)) (hnum : ∀ x, P (.num x))
    (hbool : ∀ b, P (.bool b)) (hnull : P .null)
    (harr : ∀ xs, (∀ x ∈ xs, P x) → P (.arr xs))
    (hobj : ∀ kvs, (∀ kv ∈ kvs, P kv.2) → P (.obj kvs)) : ∀ v, P v
  | .str t => hstr t
  | .num x => hnum x
  | .bool b => hbool b
  | .null => hnull
  | .arr xs => harr xs fun x hx =>
      JValue.strongInduction P hstr hnum hbool hnull harr hobj x
  | .obj kvs => hobj kvs fun kv hkv =>
      JValue.strongInduction P hstr hnum hbool hnull harr hobj kv.2
termination_by v => sizeOf v
decreasing_by
  · have h := List.sizeOf_lt_of_mem hx
    simp only [JValue.arr.sizeOf_spec]
    omega
  · have h := List.sizeOf_lt_of_mem hkv
    obtain ⟨a, b⟩ := kv
    simp only [Prod.mk.sizeOf_spec] at h
    simp only [JValue.obj.sizeOf_spec]
    omega

theorem scalarEq_null (l : JValue) (hl : l ≠ JValue.null) : scalarEq l JValue.null = false := by
  cases l <;> first | rfl | exact absurd rfl hl

theorem leafAtArr_exists (p : List String) (l : JValue) :
    ∀ ys : List JValue, leafAtArr p l ys = true → ∃ y ∈ ys, leafAt p l y = true
  | y :: ys, h => by
    have h9 : (leafAt p l y || leafAtArr p l ys) = true := h
    rcases Bool.or_eq_true .. |>.mp h9 with h1 | h2
    · exact ⟨y, List.mem_cons_self y ys, h1⟩
    · obtain ⟨y', hm, hy⟩ := leafAtArr_exists p l ys h2
      exact ⟨y', List.mem_cons_of_mem y hm, hy⟩

theorem leafAtArr_of_mem (p : List String) (l : JValue) :
    ∀ (ys : List JValue) (y : JValue), y ∈ ys → leafAt p l y = true → leafAtArr p l ys = true
  | y' :: ys, y, hm, hy => by
    show (leafAt p l y' || leafAtArr p l ys) = true
    rcases List.mem_cons.mp hm with rfl | hm'
    · rw [hy]
      rfl
    · rw [leafAtArr_of_mem p l ys y hm' hy]
      simp

theorem leafAtObj_exists (l : JValue) :
    ∀ (kvs : List (String × JValue)) (p : List String), leafAtObj p l kvs = true →
      ∃ kv ∈ kvs, ∃ p', p = kv.1 :: p' ∧ leafAt p' l kv.2 = true
  | (k, v) :: rest, p, h => by
    cases p with
    | nil =>
      have h9 : leafAtObj [] l rest = true := h
      obtain ⟨kv, hm, p', hp, hleaf⟩ := leafAtObj_exists l rest [] h9
      exact ⟨kv, List.mem_cons_of_mem _ hm, p', hp, hleaf⟩
    | cons k' p' =>
      have h9 : (((k == k') && leafAt p' l v) || leafAtObj (k' :: p') l rest) = true := h
      rcases Bool.or_eq_true .. |>.mp h9 with h1 | h2
      · rw [Bool.and_eq_true] at h1
        have hk : k = k' := eq_of_beq h1.1
        exact ⟨(k, v), List.mem_cons_self _ _, p', by rw [hk], h1.2⟩
      · obtain ⟨kv, hm, p'', hp, hleaf⟩ := leafAtObj_exists l rest (k' :: p') h2
        exact ⟨kv, List.mem_cons_of_mem _ hm, p'', hp, hleaf⟩

theorem leafAtObj_of_mem (l : JValue) :
    ∀ (kvs : List (String × JValue)) (k : String) (v : JValue) (p' : List String),
      (k, v) ∈ kvs → leafAt p' l v = true → leafAtObj (k :: p') l kvs = true
  | (k0, v0) :: rest, k, v, p', hm, hv => by
    show (((k0 == k) && leafAt p' l v0) || leafAtObj (k :: p') l rest) = true
    rcases List.mem_cons.mp hm with heq | hm'
    · injection heq with h1 h2
      subst h1
      subst h2
      simp [hv]
    · rw [leafAtObj_of_mem l rest k v p' hm' hv]
      simp

theorem cleanArr_mem :
    ∀ (xs : List JValue) (y : JValue), y ∈ cleanArr xs → ∃ x ∈ xs, y = clean_entry x
  | [], y, h => by simp [cleanArr] at h
  | x :: xs, y, h => by
    rw [cleanArr.eq_2] at h
    split at h
    · obtain ⟨x', hm, he⟩ := cleanArr_mem xs y h
      exact ⟨x', List.mem_cons_of_mem _ hm, he⟩
    · rcases List.mem_cons.mp h with rfl | hm
      · exact ⟨x, List.mem_cons_self x xs, rfl⟩
      · obtain ⟨x', hm', he⟩ := cleanArr_mem xs y hm
        exact ⟨x', List.mem_cons_of_mem _ hm', he⟩

theorem cleanObj_mem :
    ∀ (kvs : List (String × JValue)) (kv' : String × JValue), kv' ∈ cleanObj kvs →
      ∃ v0, (kv'.1, v0) ∈ kvs ∧ (kv'.2 = v0 ∨ kv'.2 = clean_entry v0)
  | [], kv', h => by simp [cleanObj] at h
  | (k, v) :: rest, kv', h => by
    have htail : kv' ∈ cleanObj rest →
        ∃ v0, (kv'.1, v0) ∈ (k, v) :: rest ∧ (kv'.2 = v0 ∨ kv'.2 = clean_entry v0) := by
      intro hm
      obtain ⟨v0, hm0, hw⟩ := cleanObj_mem rest kv' hm
      exact ⟨v0, List.mem_cons_of_mem _ hm0, hw⟩
    cases v with
    | obj kvs0 =>
      rw [cleanObj.eq_2] at h
      split at h
      · rcases List.mem_cons.mp h with rfl | hm
        · exact ⟨.obj kvs0, List.mem_cons_self _ _, Or.inl rfl⟩
        · exact htail hm
      · dsimp only at h
        split at h
        · exact htail h
        · rcases List.mem_cons.mp h with rfl | hm
          · exact ⟨.obj kvs0, List.mem_cons_self _ _, Or.inr rfl⟩
          · exact htail hm
    | arr xs0 =>
      rw [cleanObj.eq_3] at h
      split at h
      · rcases List.mem_cons.mp h with rfl | hm
        · exact ⟨.arr xs0, List.mem_cons_self _ _, Or.inl rfl⟩
        · exact htail hm
      · dsimp only at h
        split at h
        · exact htail h
        · rcases List.mem_cons.mp h with rfl | hm
          · exact ⟨.arr xs0, List.mem_cons_self _ _, Or.inr rfl⟩
          · exact htail hm
    | str a =>
      rw [cleanObj.eq_4 k (.str a) rest (fun _ h => nomatch h) (fun _ h => nomatch h)] at h
      split at h
      · rcases List.mem_cons.mp h with rfl | hm
        · exact ⟨.str a, List.mem_cons_self _ _, Or.inl rfl⟩
        · exact htail hm
      · exact htail h
    | num a =>
      rw [cleanObj.eq_4 k (.num a) rest (fun _ h => nomatch h) (fun _ h => nomatch h)] at h
      split at h
      · rcases List.mem_cons.mp h with rfl | hm
        · exact ⟨.num a, List.mem_cons_self _ _, Or.inl rfl⟩
        · exact htail hm
      · exact htail h
    | bool a =>
      rw [cleanObj.eq_4 k (.bool a) rest (fun _ h => nomatch h) (fun _ h => nomatch h)] at h
      split at h
      · rcases List.mem_cons.mp h with rfl | hm
        · exact ⟨.bool a, List.mem_cons_self _ _, Or.inl rfl⟩
        · exact htail hm
      · exact htail h
    | null =>
      rw [cleanObj.eq_4 k .null rest (fun _ h => nomatch h) (fun _ h => nomatch h)] at h
      split at h
      · rcases List.mem_cons.mp h with rfl | hm
        · exact ⟨.null, List.mem_cons_self _ _, Or.inl rfl⟩
        · exact htail hm
      · exact htail h

theorem clean_leaf (v : JValue) : ∀ (p : List String) (l : JValue), l ≠ JValue.null →
    leafAt p l (clean_entry v) = true → leafAt p l v = true := by
  induction v using JValue.strongInduction with
  | hstr t =>
    intro p l hl h
    have hn : leafAt p l JValue.null = (p.isEmpty && scalarEq l JValue.null) := rfl
    rw [show clean_entry (.str t) = .null from rfl, hn, scalarEq_null l hl] at h
    simp at h
  | hnum x =>
    intro p l hl h
    have hn : leafAt p l JValue.null = (p.isEmpty && scalarEq l JValue.null) := rfl
    rw [show clean_entry (.num x) = .null from rfl, hn, scalarEq_null l hl] at h
    simp at h
  | hbool b =>
    intro p l hl h
    have hn : leafAt p l JValue.null = (p.isEmpty && scalarEq l JValue.null) := rfl
    rw [show clean_entry (.bool b) = .null from rfl, hn, scalarEq_null l hl] at h
    simp at h
  | hnull =>
    intro p l hl h
    have hn : leafAt p l JValue.null = (p.isEmpty && scalarEq l JValue.null) := rfl
    rw [show clean_entry .null = .null from rfl, hn, scalarEq_null l hl] at h
    simp at h
  | harr xs ih =>
    intro p l hl h
    obtain ⟨y, hm, hy⟩ := leafAtArr_exists p l (cleanArr xs)
      (show leafAtArr p l (cleanArr xs) = true from h)
    obtain ⟨x, hx, rfl⟩ := cleanArr_mem xs y hm
    exact leafAtArr_of_mem p l xs x hx (ih x hx p l hl hy)
  | hobj kvs ih =>
    intro p l hl h
    obtain ⟨kv', hm, p', hp, hleaf⟩ := leafAtObj_exists l (cleanObj kvs) p
      (show leafAtObj p l (cleanObj kvs) = true from h)
    obtain ⟨v0, hm0, hw⟩ := cleanObj_mem kvs kv' hm
    subst hp
    rcases hw with hw | hw
    · exact leafAtObj_of_mem l kvs kv'.1 v0 p' hm0 (hw ▸ hleaf)
    · exact leafAtObj_of_mem l kvs kv'.1 v0 p' hm0
        (ih (kv'.1, v0) hm0 p' l hl (hw ▸ hleaf))

theorem reduceObj_mem :
    ∀ (kvs : List (String × JValue)) (kv' : String × JValue), kv' ∈ reduceObj kvs →
      ∃ v0, (kv'.1, v0) ∈ kvs ∧
        (kv'.2 = v0 ∨ kv'.2 = reduce_entries v0 ∨
          ∃ es, v0 = JValue.obj es ∧
            kv'.2 = JValue.obj (es.map fun kv => (kv.1, clean_entry kv.2)))
  | [], kv', h => by simp [reduceObj] at h
  | (k, v) :: rest, kv', h => by
    have htail : kv' ∈ reduceObj rest →
        ∃ v0, (kv'.1, v0) ∈ (k, v) :: rest ∧
          (kv'.2 = v0 ∨ kv'.2 = reduce_entries v0 ∨
            ∃ es, v0 = JValue.obj es ∧
              kv'.2 = JValue.obj (es.map fun kv => (kv.1, clean_entry kv.2))) := by
      intro hm
      obtain ⟨v0, hm0, hw⟩ := reduceObj_mem rest kv' hm
      exact ⟨v0, List.mem_cons_of_mem _ hm0, hw⟩
    cases v with
    | obj es =>
      cases hkk : (k == "entries") with
      | true =>
        rw [reduceObj.eq_2 _ _ _ hkk] at h
        rcases List.mem_cons.mp h with rfl | hm
        · exact ⟨.obj es, List.mem_cons_self _ _, Or.inr (Or.inr ⟨es, rfl, rfl⟩)⟩
        · exact htail hm
      | false =>
        rw [reduceObj.eq_3 _ _ _ hkk] at h
        rcases List.mem_cons.mp h with rfl | hm
        · exact ⟨.obj es, List.mem_cons_self _ _, Or.inr (Or.inl rfl)⟩
        · exact htail hm
    | arr xs =>
      rw [reduceObj.eq_4] at h
      rcases List.mem_cons.mp h with rfl | hm
      · exact ⟨.arr xs, List.mem_cons_self _ _, Or.inr (Or.inl rfl)⟩
      · exact htail hm
    | str a =>
      rw [reduceObj.eq_5 k rest (.str a) (fun _ h => nomatch h) (fun _ h _ => nomatch h)
        (fun _ h _ => nomatch h)] at h
      rcases List.mem_cons.mp h with rfl | hm
      · exact ⟨.str a, List.mem_cons_self _ _, Or.inl rfl⟩
      · exact htail hm
    | num a =>
      rw [reduceObj.eq_5 k rest (.num a) (fun _ h => nomatch h) (fun _ h _ => nomatch h)
        (fun _ h _ => nomatch h)] at h
      rcases List.mem_cons.mp h with rfl | hm
      · exact ⟨.num a, List.mem_cons_self _ _, Or.inl rfl⟩
      · exact htail hm
    | bool a =>
      rw [reduceObj.eq_5 k rest (.bool a) (fun _ h => nomatch h) (fun _ h _ => nomatch h)
        (fun _ h _ => nomatch h)] at h
      rcases List.mem_cons.mp h with rfl | hm
      · exact ⟨.bool a, List.mem_cons_self _ _, Or.inl rfl⟩
      · exact htail hm
    | null =>
      rw [reduceObj.eq_5 k rest .null (fun _ h => nomatch h) (fun _ h _ => nomatch h)
        (fun _ h _ => nomatch h)] at h
      rcases List.mem_cons.mp h with rfl | hm
      · exact ⟨.null, List.mem_cons_self _ _, Or.inl rfl⟩
      · exact htail hm

theorem reduce_leaf (v : JValue) : ∀ (p : List String) (l : JValue), l ≠ JValue.null →
    leafAt p l (reduce_entries v) = true → leafAt p l v = true := by
  induction v using JValue.strongInduction with
  | hstr t => exact fun p l _ h => h
  | hnum x => exact fun p l _ h => h
  | hbool b => exact fun p l _ h => h
  | hnull => exact fun p l _ h => h
  | harr xs _ => exact fun p l _ h => h
  | hobj kvs ih =>
    intro p l hl h
    obtain ⟨kv', hm, p', hp, hleaf⟩ := leafAtObj_exists l (reduceObj kvs) p
      (show leafAtObj p l (reduceObj kvs) = true from h)
    obtain ⟨v0, hm0, hw⟩ := reduceObj_mem kvs kv' hm
    subst hp
    rcases hw with hw | hw | ⟨es, hv0, hw⟩
    · exact leafAtObj_of_mem l kvs kv'.1 v0 p' hm0 (hw ▸ hleaf)
    · exact leafAtObj_of_mem l kvs kv'.1 v0 p' hm0
        (ih (kv'.1, v0) hm0 p' l hl (hw ▸ hleaf))
    · rw [hw] at hleaf
      obtain ⟨me, hme, p'', hp', hleaf'⟩ := leafAtObj_exists l
        (es.map fun kv => (kv.1, clean_entry kv.2)) p'
        (show leafAtObj p' l (es.map fun kv => (kv.1, clean_entry kv.2)) = true from hleaf)
      obtain ⟨⟨ek, ev⟩, hev, hme'⟩ := List.mem_map.mp hme
      have hleafev : leafAt p'' l ev = true := by
        apply clean_leaf ev p'' l hl
        have : me.2 = clean_entry ev := by rw [← hme']
        rw [← this]
        exact hleaf'
      have hfst : me.1 = ek := by rw [← hme']
      have hin : leafAtObj (me.1 :: p'') l es = true := by
        rw [hfst]
        exact leafAtObj_of_mem l es ek ev p'' hev hleafev
      rw [hp'] at *
      refine leafAtObj_of_mem l kvs kv'.1 v0 (me.1 :: p'') hm0 ?_
      rw [hv0]
      exact hin

/-- C7 (amended): reduction fabricates no non-null leaf: every leaf value of
`reduce_entries d` other than `null` (the image of a scalar entry value
under `clean_entry`) also occurs in `d` at the same key path (the path of
object keys from the root; array levels are transparent).  In particular no
key is introduced that leads to a non-null leaf absent from the source. -/
theorem reduce_leaf_subset (d : JValue) (p : List String) (l : JValue)
    (hl : l ≠ JValue.null) (h : leafAt p l (reduce_entries d) = true) :
    leafAt p l d = true :=
  reduce_leaf d p l hl h

/-- Witness for C7: the label leaf of the reduced document is found in the
original at the same key path. -/
theorem reduce_leaf_subset_witness :
    (JValue.str "L" ≠ JValue.null) ∧
      leafAt ["entries", "a", "label"] (.str "L")
        (reduce_entries (.obj [("entries", .obj [("a",
          .obj [("label", .str "L"), ("x", .num 1)])])])) = true ∧
      leafAt ["entries", "a", "label"] (.str "L")
        (.obj [("entries", .obj [("a", .obj [("label", .str "L"), ("x", .num 1)])])]) = true :=
  ⟨(fun h => nomatch h),
    ⟨rfl, reduce_leaf_subset _ _ _ (fun h => nomatch h) rfl⟩⟩

/-- C7 counterexample: reduction replaces the scalar entry value `5` by
`null`, a leaf value that does not occur in the source document at the path
`entries → a` — so, as stated (all leaves preserved), the claim is false. -/
theorem reduce_fabricates_null_counterexample :
    reduce_entries (.obj [("entries", .obj [("a", .num 5)])])
        = .obj [("entries", .obj [("a", .null)])] ∧
      leafAt ["entries", "a"] .null
        (reduce_entries (.obj [("entries", .obj [("a", .num 5)])])) = true ∧
      leafAt ["entries", "a"] .null (.obj [("entries", .obj [("a", .num 5)])]) = false :=
  ⟨rfl, rfl, rfl⟩

-- ==================== Sort: characterization and idempotence ====================

theorem lookup_append (k : String) :
    ∀ a b : List (String × JValue), List.lookup k (a ++ b) = (List.lookup k a).or (List.lookup k b)
  | [], _ => by simp [List.lookup]
  | (k', v') :: a, b => by
    rw [List.cons_append, List.lookup, List.lookup]
    cases hbe : (k == k') with
    | true => rfl
    | false => exact lookup_append k a b

theorem lookup_graph (f : String → JValue) (k : String) :
    ∀ ks : List String,
      List.lookup k (ks.map fun k' => (k', f k')) = if ks.contains k then some (f k) else none
  | [] => by simp [List.lookup]
  | k' :: ks => by
    rw [List.map_cons, List.lookup]
    cases hbe : (k == k') with
    | true =>
      rw [eq_of_beq hbe]
      simp [List.contains_cons]
    | false =>
      rw [lookup_graph f k ks]
      simp [List.contains_cons, ne_of_beq_false hbe]

theorem contains_filter_key (p : String → Bool) (k : String) :
    ∀ ks : List String, (ks.filter p).contains k = (ks.contains k && p k)
  | [] => by simp
  | k' :: ks => by
    cases hbe : (k == k') with
    | true =>
      rw [eq_of_beq hbe]
      cases hp : p k' <;>
        simp [List.filter_cons, hp, List.contains_cons, contains_filter_key p k' ks]
    | false =>
      cases hp : p k' <;>
        simp [List.filter_cons, hp, List.contains_cons, ne_of_beq_false hbe,
          contains_filter_key p k ks]

theorem foldl_phaseA (data : List (String × JValue)) :
    ∀ (keys : List String) (acc : List (String × JValue)),
      keys.foldl (fun acc key =>
          if containsKey data key then acc ++ [(key, maybeSortVal key (lookupD data key))]
          else acc) acc
        = acc ++ (keys.filter fun k => containsKey data k).map
            (fun k => (k, maybeSortVal k (lookupD data k)))
  | [], acc => by simp
  | key :: keys, acc => by
    rw [List.foldl_cons]
    cases hc : containsKey data key <;>
      simp [hc, foldl_phaseA data keys, List.filter_cons]

theorem foldl_phaseB :
    ∀ (l acc : List (String × JValue)),
      l.foldl (fun acc kv =>
          if TOP_LEVEL_KEYS_ORDER.contains kv.1 then acc else acc ++ [kv]) acc
        = acc ++ l.filter fun kv => !TOP_LEVEL_KEYS_ORDER.contains kv.1
  | [], acc => by simp
  | kv :: l, acc => by
    rw [List.foldl_cons, foldl_phaseB l, List.filter_cons]
    by_cases hc : kv.1 ∈ TOP_LEVEL_KEYS_ORDER <;> simp [hc]

/-- The declarative form of `partial_sort_json`: the present preferred keys,
in the fixed order and inner-sorted, followed by the non-preferred items in
their original relative order. -/
theorem partial_sort_json_eq (data : List (String × JValue)) :
    partial_sort_json data =
      (TOP_LEVEL_KEYS_ORDER.filter fun k => containsKey data k).map
          (fun k => (k, maybeSortVal k (lookupD data k)))
        ++ data.filter fun kv => !TOP_LEVEL_KEYS_ORDER.contains kv.1 := by
  unfold partial_sort_json
  rw [foldl_phaseA, foldl_phaseB]
  simp

theorem strLeB_total : ∀ as bs : List Char, strLeB as bs = true ∨ strLeB bs as = true
  | [], _ => Or.inl rfl
  | _ :: _, [] => Or.inr rfl
  | a :: as, b :: bs => by
    by_cases h1 : a.toNat < b.toNat
    · exact Or.inl (by simp [strLeB, h1])
    · by_cases h2 : b.toNat < a.toNat
      · exact Or.inr (by simp [strLeB, h2])
      · cases strLeB_total as bs with
        | inl h => exact Or.inl (by simp [strLeB, h1, h2, h])
        | inr h => exact Or.inr (by simp [strLeB, h1, h2, h])

theorem strLeB_cons (a b : Char) (as bs : List Char) :
    strLeB (a :: as) (b :: bs) =
      if a.toNat < b.toNat then true
      else if b.toNat < a.toNat then false
      else strLeB as bs := rfl

theorem strLeB_trans : ∀ as bs cs : List Char,
    strLeB as bs = true → strLeB bs cs = true → strLeB as cs = true
  | [], _, _, _, _ => rfl
  | _ :: _, [], _, h1, _ => by simp [strLeB] at h1
  | _ :: _, _ :: _, [], _, h2 => by simp [strLeB] at h2
  | a :: as, b :: bs, c :: cs, h1, h2 => by
    rw [strLeB_cons] at h1 h2 ⊢
    rcases lt_trichotomy a.toNat b.toNat with hab | hab | hab <;>
      rcases lt_trichotomy b.toNat c.toNat with hbc | hbc | hbc <;>
      first
        | rw [if_pos (show a.toNat < c.toNat by omega)]
        | (rw [if_neg (show ¬a.toNat < b.toNat by omega),
            if_pos (show b.toNat < a.toNat by omega)] at h1
           simp at h1)
        | (rw [if_neg (show ¬b.toNat < c.toNat by omega),
            if_pos (show c.toNat < b.toNat by omega)] at h2
           simp at h2)
        | (rw [if_neg (show ¬a.toNat < b.toNat by omega),
            if_neg (show ¬b.toNat < a.toNat by omega)] at h1
           rw [if_neg (show ¬b.toNat < c.toNat by omega),
            if_neg (show ¬c.toNat < b.toNat by omega)] at h2
           rw [if_neg (show ¬a.toNat < c.toNat by omega),
            if_neg (show ¬c.toNat < a.toNat by omega)]
           exact strLeB_trans as bs cs h1 h2)

instance : IsTotal (String × JValue) keyLE := ⟨fun a b => strLeB_total a.1.data b.1.data⟩

instance : IsTrans (String × JValue) keyLE :=
  ⟨fun a b c h1 h2 => strLeB_trans a.1.data b.1.data c.1.data h1 h2⟩

theorem sort_immediate_keys_idem (kvs : List (String × JValue)) :
    sort_immediate_keys (sort_immediate_keys kvs) = sort_immediate_keys kvs :=
  List.Sorted.insertionSort_eq (List.sorted_insertionSort keyLE kvs)

theorem maybeSortVal_idem (k : String) (v : JValue) :
    maybeSortVal k (maybeSortVal k v) = maybeSortVal k v := by
  unfold maybeSortVal
  cases hc : KEYS_TO_SORT_IMMEDIATELY.contains k with
  | false => simp [hc]
  | true => cases v <;> simp [hc, sort_immediate_keys_idem]

theorem lookup_filter_notord_none (k : String) (h : k ∈ TOP_LEVEL_KEYS_ORDER) :
    ∀ l : List (String × JValue),
      List.lookup k (l.filter fun kv => !TOP_LEVEL_KEYS_ORDER.contains kv.1) = none
  | [] => rfl
  | kv :: l => by
    rw [List.filter_cons]
    by_cases hp : kv.1 ∈ TOP_LEVEL_KEYS_ORDER
    · rw [if_neg (by simp [hp])]
      exact lookup_filter_notord_none k h l
    · have hne : (k == kv.1) = false := by
        cases hkk : (k == kv.1) with
        | true => exact absurd (eq_of_beq hkk ▸ h) hp
        | false => rfl
      rw [if_pos (by simp [hp]), List.lookup, hne]
      exact lookup_filter_notord_none k h l

-- ==================== C8: sort key ordering ====================

/-- C8: `partial_sort_json` emits the present keys among
`label, mapping, folders, entries` first, in that fixed order (inner-sorting
the dict values of `folders`/`entries` lexicographically by immediate key,
values untouched), followed by all remaining items in their original
relative order; and the concrete scenario
`{"entries": {"b":1,"a":2}, "label":"X", "folders":{}}` sorts to
`label, folders, entries` with the inner keys of `entries` reordered to
`a, b`. -/
theorem sort_key_order :
    (∀ data : List (String × JValue),
      partial_sort_json data =
        (TOP_LEVEL_KEYS_ORDER.filter fun k => containsKey data k).map
            (fun k => (k, maybeSortVal k (lookupD data k)))
          ++ data.filter fun kv => !TOP_LEVEL_KEYS_ORDER.contains kv.1) ∧
    partial_sort_json
        [("entries", .obj [("b", .num 1), ("a", .num 2)]), ("label", .str "X"),
          ("folders", .obj [])] =
      [("label", .str "X"), ("folders", .obj []),
        ("entries", .obj [("a", .num 2), ("b", .num 1)])] :=
  ⟨partial_sort_json_eq, rfl⟩

-- ==================== C6: sort is idempotent ====================

/-- C6: `partial_sort_json` is idempotent: sorting a sorted document changes
nothing, both at the top level and inside `folders`/`entries`. -/
theorem sort_idempotent (data : List (String × JValue)) :
    partial_sort_json (partial_sort_json data) = partial_sort_json data := by
  rw [partial_sort_json_eq data]
  set A := (TOP_LEVEL_KEYS_ORDER.filter fun k => containsKey data k).map
      (fun k => (k, maybeSortVal k (lookupD data k))) with hA
  set B := data.filter (fun kv => !TOP_LEVEL_KEYS_ORDER.contains kv.1) with hB
  have hBfilter : (A ++ B).filter (fun kv => !TOP_LEVEL_KEYS_ORDER.contains kv.1) = B := by
    rw [List.filter_append]
    have h1 : A.filter (fun kv => !TOP_LEVEL_KEYS_ORDER.contains kv.1) = [] := by
      rw [List.filter_eq_nil_iff]
      intro kv hkv
      rw [hA] at hkv
      obtain ⟨k, hk, rfl⟩ := List.mem_map.mp hkv
      have hk4 : k ∈ TOP_LEVEL_KEYS_ORDER := (List.mem_filter.mp hk).1
      simp [hk4]
    have h2 : B.filter (fun kv => !TOP_LEVEL_KEYS_ORDER.contains kv.1) = B := by
      apply List.filter_eq_self.mpr
      intro kv hkv
      rw [hB] at hkv
      exact (List.mem_filter.mp hkv).2
    rw [h1, h2, List.nil_append]
  have hlookA : ∀ k : String, List.lookup k A =
      if TOP_LEVEL_KEYS_ORDER.contains k && containsKey data k
      then some (maybeSortVal k (lookupD data k)) else none := by
    intro k
    rw [hA, lookup_graph, contains_filter_key]
  have hcont : ∀ k ∈ TOP_LEVEL_KEYS_ORDER, containsKey (A ++ B) k = containsKey data k := by
    intro k hk
    have hsplit : containsKey (A ++ B) k = ((List.lookup k A).or (List.lookup k B)).isSome := by
      unfold containsKey
      rw [lookup_append]
    have hk' : TOP_LEVEL_KEYS_ORDER.contains k = true := List.elem_eq_true_of_mem hk
    rw [hsplit, hlookA k, hB, lookup_filter_notord_none k hk data, hk']
    cases hc : containsKey data k <;> simp [hc]
  have hfilter : (TOP_LEVEL_KEYS_ORDER.filter fun k => containsKey (A ++ B) k)
      = TOP_LEVEL_KEYS_ORDER.filter fun k => containsKey data k :=
    List.filter_congr hcont
  rw [partial_sort_json_eq (A ++ B), hBfilter, hfilter]
  have hmap : ((TOP_LEVEL_KEYS_ORDER.filter fun k => containsKey data k).map
      fun k => (k, maybeSortVal k (lookupD (A ++ B) k))) = A := by
    rw [hA]
    apply List.map_eq_map_iff.mpr
    intro k hk
    have hk4 : k ∈ TOP_LEVEL_KEYS_ORDER := (List.mem_filter.mp hk).1
    have hc : containsKey data k = true := by
      have := (List.mem_filter.mp hk).2
      simpa using this
    have hk' : TOP_LEVEL_KEYS_ORDER.contains k = true := List.elem_eq_true_of_mem hk4
    have hlu : List.lookup k (A ++ B) = some (maybeSortVal k (lookupD data k)) := by
      rw [lookup_append, hlookA k, hB, lookup_filter_notord_none k hk4 data, hk', hc]
      rfl
    rw [show lookupD (A ++ B) k = maybeSortVal k (lookupD data k) by
      unfold lookupD; rw [hlu]; rfl]
    rw [maybeSortVal_idem]
  rw [hmap]

-- ==================== C5: round trip ====================

/-- C5: for the concrete document
`{"entries": {"a": {"_id": "i1", "name": "Sword", "label": "Sword", "value": 10}}}`
reduction drops the non-translatable `value` key, and merging the companion
back after editing its `label` to `"Espada"` restores the original document
with `label = "Espada"` and `value` still `10`. -/
theorem round_trip_sword :
    reduce_entries (.obj [("entries", .obj [("a", .obj [("_id", .str "i1"), ("name", .str "Sword"),
        ("label", .str "Sword"), ("value", .num 10)])])]) =
      .obj [("entries", .obj [("a", .obj [("_id", .str "i1"), ("name", .str "Sword"),
        ("label", .str "Sword")])])] ∧
    merge_document 3
        [("entries", .obj [("a", .obj [("_id", .str "i1"), ("name", .str "Sword"),
          ("label", .str "Sword"), ("value", .num 10)])])]
        [("entries", .obj [("a", .obj [("_id", .str "i1"), ("name", .str "Sword"),
          ("label", .str "Espada")])])] =
      some [("entries", .obj [("a", .obj [("_id", .str "i1"), ("name", .str "Sword"),
        ("label", .str "Espada"), ("value", .num 10)])])] :=
  ⟨rfl, rfl⟩

-- ==================== C3: merge_lists lookup tables ====================

theorem lookup_pyInsert_self {β : Type} (k : String) (v : β) :
    ∀ m : List (String × β), List.lookup k (pyInsert m k v) = some v
  | [] => by simp [pyInsert, List.lookup]
  | (k', v') :: m => by
    rw [pyInsert]
    cases hbe : (k' == k) with
    | true =>
      rw [if_pos rfl, List.lookup]
      rw [show (k == k') = true from BEq.symm hbe]
    | false =>
      rw [if_neg (by simp [hbe]), List.lookup,
        show (k == k') = false from BEq.symm_false hbe]
      exact lookup_pyInsert_self k v m

theorem lookup_pyInsert_ne {β : Type} (k : String) (v : β) (k' : String)
    (h : (k' == k) = false) :
    ∀ m : List (String × β), List.lookup k' (pyInsert m k v) = List.lookup k' m
  | [] => by simp [pyInsert, List.lookup, h]
  | (k₀, v₀) :: m => by
    rw [pyInsert]
    cases hbe : (k₀ == k) with
    | true =>
      rw [if_pos rfl, List.lookup, List.lookup]
      cases hkk : (k' == k₀) with
      | true =>
        rw [eq_of_beq hkk] at h
        rw [hbe] at h
        exact absurd h (by simp)
      | false => rfl
    | false =>
      rw [if_neg (by simp [hbe]), List.lookup, List.lookup]
      cases hkk : (k' == k₀) with
      | true => rfl
      | false => exact lookup_pyInsert_ne k v k' h m

theorem lookup_foldl_build (g : Nat → Option String) (sid : String) :
    ∀ (l : List Nat) (m : List (String × Nat)),
      List.lookup sid (l.foldl (fun m i =>
          match g i with
          | some s => pyInsert m s i
          | none => m) m)
        = match l.reverse.find? (fun i => g i == some sid) with
          | some i => some i
          | none => List.lookup sid m
  | [], m => by simp
  | x :: l, m => by
    rw [List.foldl_cons, lookup_foldl_build g sid l, List.reverse_cons, List.find?_append]
    cases hfind : l.reverse.find? (fun i => g i == some sid) with
    | some i => rfl
    | none =>
      simp only [Option.none_or]
      cases hg : g x with
      | none => simp [List.find?, hg]
      | some s =>
        by_cases hs : sid = s
        · subst hs
          rw [lookup_pyInsert_self]
          simp [List.find?, hg]
        · have h1 : (sid == s) = false := beq_false_of_ne hs
          rw [lookup_pyInsert_ne s x sid h1]
          have h2 : ((some s : Option String) == some sid) = false := by
            cases hq : ((some s : Option String) == some sid) with
            | false => rfl
            | true => exact absurd (Option.some.inj (eq_of_beq hq)) fun he => hs he.symm
          simp only [List.find?, hg, h2]

/-- C3 (amended): the `merge_lists` lookup tables index the source dict
elements by string-valued `_id` and separately by string-valued `name`, and
on duplicate keys the LAST occurrence in the source sequence wins: the
lookup equals a search through the dict indices in reverse order. -/
theorem buildLookup_last_wins (src : List JValue) (field sid : String) :
    List.lookup sid (buildLookup src field) =
      (dictIdx src).reverse.find? fun i => fieldStrAt src i field == some sid := by
  unfold buildLookup
  rw [lookup_foldl_build (fun i => fieldStrAt src i field) sid (dictIdx src) []]
  cases hfind : (dictIdx src).reverse.find? (fun i => fieldStrAt src i field == some sid) with
  | some i => rfl
  | none => rfl

/-- C3 counterexample: with two source elements sharing `_id = "x"`, the
lookup maps `"x"` to index 1 (the latest occurrence), not 0 (the earliest),
refuting first-occurrence-wins. -/
theorem buildLookup_first_wins_counterexample :
    List.lookup "x" (buildLookup
        [.obj [("_id", .str "x"), ("label", .str "A")],
         .obj [("_id", .str "x"), ("label", .str "B")]] "_id") = some 1 ∧
      some 1 ≠ some 0 :=
  ⟨rfl, by simp⟩

-- ==================== C4: merge never overwrites a scalar `_id` ====================

theorem lookup_copyStep_id (d : List (String × JValue)) (kv : String × JValue) :
    List.lookup "_id" (copyStep d kv) = List.lookup "_id" d := by
  rw [copyStep.eq_1]
  cases hk : (kv.1 == "_id") with
  | true => rfl
  | false =>
    cases hw : kv.2 with
    | str a =>
      cases hc : TRANSLATABLE_KEYS.contains kv.1 with
      | true => exact lookup_pyInsert_ne kv.1 (.str a) "_id" (BEq.symm_false hk) d
      | false => rfl
    | obj _ => rfl
    | arr _ => rfl
    | num _ => rfl
    | bool _ => rfl
    | null => rfl

theorem lookup_copy_id (s : List (String × JValue)) :
    ∀ d, List.lookup "_id" (copy_string_fields d s) = List.lookup "_id" d := by
  induction s with
  | nil => intro d; rfl
  | cons kv s ih =>
    intro d
    have hcons : copy_string_fields d (kv :: s) = copy_string_fields (copyStep d kv) s := rfl
    rw [hcons, ih (copyStep d kv), lookup_copyStep_id]

theorem mergeKeyStep_fst (skvs : List (String × JValue)) (mt : JValue → JValue → JValue)
    (ml : List JValue → List JValue → List JValue) (kv : String × JValue) :
    (mergeKeyStep skvs mt ml kv).1 = kv.1 := by
  obtain ⟨a, b⟩ := kv
  rw [mergeKeyStep]
  cases b <;>
    first
      | rfl
      | (cases hlk : List.lookup a skvs with
          | none => rfl
          | some w => cases w <;> rfl)

theorem crossStep_fst (srcLists : List (List JValue))
    (ml : List JValue → List JValue → List JValue) (kv : String × JValue) :
    (crossStep srcLists ml kv).1 = kv.1 := by
  obtain ⟨a, b⟩ := kv
  rw [crossStep]
  cases b <;> rfl

theorem lookup_map_keyfix (F : String × JValue → String × JValue)
    (hF : ∀ kv, (F kv).1 = kv.1) (k : String) :
    ∀ l : List (String × JValue),
      List.lookup k (l.map F) = (List.lookup k l).map fun w => (F (k, w)).2
  | [] => rfl
  | (k', w) :: l => by
    have hpair : F (k', w) = (k', (F (k', w)).2) := Prod.ext (hF (k', w)) rfl
    rw [List.map_cons, hpair, List.lookup, List.lookup]
    cases hbe : (k == k') with
    | true =>
      have hk : k = k' := eq_of_beq hbe
      subst hk
      rfl
    | false => exact lookup_map_keyfix F hF k l

/-- C4 (amended): merge never overwrites a scalar identity: whenever the
destination's `_id` value is a scalar (string, number, boolean or null), it
is unchanged by `merge_translations`, whatever `_id` the source carries —
the string-copy pass skips `_id` and the recursive passes only touch
dict- or list-valued fields.  (A dict- or list-valued `_id` is, however,
recursively merged like any other key: see the counterexample.)  The same
theorem applies at every nesting level, since nested merges are again
`merge_translations` calls. -/
theorem merge_preserves_scalar_id (fuel : Nat) (d s : JValue) (v : JValue)
    (hv : jGet d "_id" = some v) (hscalar : v.isScalar = true) :
    jGet (merge_translations fuel d s) "_id" = some v := by
  cases fuel with
  | zero => exact hv
  | succ n =>
    cases d with
    | obj dkvs =>
      cases s with
      | obj skvs =>
        rw [merge_translations.eq_2]
        show List.lookup "_id" _ = some v
        rw [lookup_map_keyfix, lookup_map_keyfix, lookup_copy_id]
        · have hv' : List.lookup "_id" dkvs = some v := hv
          rw [hv']
          cases v with
          | str a => rfl
          | num a => rfl
          | bool a => rfl
          | null => rfl
          | obj a => simp [JValue.isScalar, JValue.isObj] at hscalar
          | arr a => simp [JValue.isScalar, JValue.isArr] at hscalar
        · exact fun kv => mergeKeyStep_fst skvs _ _ kv
        · exact fun kv => crossStep_fst _ _ kv
      | arr a =>
        rw [merge_translations.eq_3 (JValue.obj dkvs) (JValue.arr a) n fun _ _ _ h => nomatch h]
        exact hv
      | str a =>
        rw [merge_translations.eq_3 (JValue.obj dkvs) (JValue.str a) n fun _ _ _ h => nomatch h]
        exact hv
      | num a =>
        rw [merge_translations.eq_3 (JValue.obj dkvs) (JValue.num a) n fun _ _ _ h => nomatch h]
        exact hv
      | bool a =>
        rw [merge_translations.eq_3 (JValue.obj dkvs) (JValue.bool a) n fun _ _ _ h => nomatch h]
        exact hv
      | null =>
        rw [merge_translations.eq_3 (JValue.obj dkvs) JValue.null n fun _ _ _ h => nomatch h]
        exact hv
    | arr a => simp [jGet] at hv
    | str a => simp [jGet] at hv
    | num a => simp [jGet] at hv
    | bool a => simp [jGet] at hv
    | null => simp [jGet] at hv

/-- Witness for C4 at fuel 1 with a string `_id`. -/
theorem merge_preserves_scalar_id_witness :
    jGet (.obj [("_id", .str "i"), ("label", .str "A")]) "_id" = some (.str "i") ∧
      (JValue.str "i").isScalar = true ∧
      jGet (merge_translations 1 (.obj [("_id", .str "i"), ("label", .str "A")])
          (.obj [("_id", .str "zzz"), ("label", .str "B")])) "_id" = some (.str "i") :=
  ⟨rfl, rfl, merge_preserves_scalar_id 1 _ _ _ rfl rfl⟩

/-- C4 counterexample: a dict-valued `_id` is recursively merged like any
other same-key dict pair, so the destination's `_id` value does change. -/
theorem merge_overwrites_dict_id_counterexample :
    merge_translations 2 (.obj [("_id", .obj [("label", .str "A")])])
        (.obj [("_id", .obj [("label", .str "B")])]) =
      .obj [("_id", .obj [("label", .str "B")])] ∧
      JValue.obj [("label", .str "B")] ≠ .obj [("label", .str "A")] := by
  constructor
  · rfl
  · intro h
    injection h with h
    injection h with h1 h2
    injection h1 with ha hb
    simp at hb

-- ==================== C1: merge and destination shape ====================

theorem copyStep_cases (d : List (String × JValue)) (kv : String × JValue) :
    copyStep d kv = d ∨
      ((kv.1 == "_id") = false ∧ ∃ a, kv.2 = JValue.str a ∧
        TRANSLATABLE_KEYS.contains kv.1 = true ∧
        copyStep d kv = pyInsert d kv.1 (.str a)) := by
  rw [copyStep.eq_1]
  split
  next a hid hstr htr => exact Or.inr ⟨hid, a, hstr, htr, rfl⟩
  next => exact Or.inl rfl

theorem lookup_pyInsert_isSome {β : Type} (d : List (String × β)) (k k' : String) (v : β)
    (h : (List.lookup k d).isSome = true) :
    (List.lookup k (pyInsert d k' v)).isSome = true := by
  by_cases hk : k = k'
  · subst hk
    rw [lookup_pyInsert_self]
    rfl
  · rw [lookup_pyInsert_ne k' v k (beq_false_of_ne hk)]
    exact h

theorem lookup_pyInsert_isSome_inv {β : Type} (d : List (String × β)) (k k' : String) (v : β)
    (h : (List.lookup k (pyInsert d k' v)).isSome = true) :
    k = k' ∨ (List.lookup k d).isSome = true := by
  by_cases hk : k = k'
  · exact Or.inl hk
  · rw [lookup_pyInsert_ne k' v k (beq_false_of_ne hk)] at h
    exact Or.inr h

theorem copy_mono (s : List (String × JValue)) :
    ∀ (d : List (String × JValue)) (k : String),
      (List.lookup k d).isSome = true →
      (List.lookup k (copy_string_fields d s)).isSome = true := by
  induction s with
  | nil => exact fun d k h => h
  | cons kv s ih =>
    intro d k h
    have hcons : copy_string_fields d (kv :: s) = copy_string_fields (copyStep d kv) s := rfl
    rw [hcons]
    apply ih
    rcases copyStep_cases d kv with heq | ⟨_, a, _, _, heq⟩
    · rw [heq]; exact h
    · rw [heq]; exact lookup_pyInsert_isSome d k kv.1 (.str a) h

theorem copy_new (s : List (String × JValue)) :
    ∀ (d : List (String × JValue)) (k : String),
      (List.lookup k (copy_string_fields d s)).isSome = true →
      (List.lookup k d).isSome = true ∨
        (k ∈ TRANSLATABLE_KEYS ∧ k ≠ "_id" ∧ ∃ t, (k, JValue.str t) ∈ s) := by
  induction s with
  | nil => exact fun d k h => Or.inl h
  | cons kv s ih =>
    intro d k h
    have hcons : copy_string_fields d (kv :: s) = copy_string_fields (copyStep d kv) s := rfl
    rw [hcons] at h
    rcases ih (copyStep d kv) k h with hsome | ⟨htr, hid, t, hmem⟩
    · rcases copyStep_cases d kv with heq | ⟨hid, a, hstr, htr, heq⟩
      · rw [heq] at hsome
        exact Or.inl hsome
      · rw [heq] at hsome
        rcases lookup_pyInsert_isSome_inv d k kv.1 (.str a) hsome with hk | hsome'
        · subst hk
          refine Or.inr ⟨List.mem_of_elem_eq_true htr, ne_of_beq_false hid, a, ?_⟩
          have : kv = (kv.1, JValue.str a) := Prod.ext rfl hstr
          rw [← this]
          exact List.mem_cons_self kv s
        · exact Or.inl hsome'
    · exact Or.inr ⟨htr, hid, t, List.mem_cons_of_mem kv hmem⟩

theorem copy_val (s : List (String × JValue)) :
    ∀ (d : List (String × JValue)) (k : String) (v : JValue),
      List.lookup k d = some v →
      List.lookup k (copy_string_fields d s) = some v ∨
        ∃ t, List.lookup k (copy_string_fields d s) = some (.str t) ∧
          (k, JValue.str t) ∈ s ∧ k ∈ TRANSLATABLE_KEYS := by
  induction s with
  | nil => exact fun d k v h => Or.inl h
  | cons kv s ih =>
    intro d k v h
    have hcons : copy_string_fields d (kv :: s) = copy_string_fields (copyStep d kv) s := rfl
    rw [hcons]
    rcases copyStep_cases d kv with heq | ⟨hid, a, hstr, htr, heq⟩
    · rw [heq]
      rcases ih d k v h with h' | ⟨t, h', hmem, htr'⟩
      · exact Or.inl h'
      · exact Or.inr ⟨t, h', List.mem_cons_of_mem kv hmem, htr'⟩
    · rw [heq]
      by_cases hk : k = kv.1
      · have hlu : List.lookup k (pyInsert d kv.1 (JValue.str a)) = some (JValue.str a) := by
          rw [hk]
          exact lookup_pyInsert_self kv.1 (JValue.str a) d
        rcases ih (pyInsert d kv.1 (JValue.str a)) k (JValue.str a) hlu with h' | ⟨t, h', hmem, htr'⟩
        · refine Or.inr ⟨a, h', ?_, ?_⟩
          · have hkv : kv = (k, JValue.str a) := Prod.ext hk.symm hstr
            rw [← hkv]
            exact List.mem_cons_self kv s
          · rw [hk]
            exact List.mem_of_elem_eq_true htr
        · exact Or.inr ⟨t, h', List.mem_cons_of_mem kv hmem, htr'⟩
      · have hlu : List.lookup k (pyInsert d kv.1 (JValue.str a)) = some v := by
          rw [lookup_pyInsert_ne kv.1 (JValue.str a) k (beq_false_of_ne hk)]
          exact h
        rcases ih (pyInsert d kv.1 (JValue.str a)) k v hlu with h' | ⟨t, h', hmem, htr'⟩
        · exact Or.inl h'
        · exact Or.inr ⟨t, h', List.mem_cons_of_mem kv hmem, htr'⟩

theorem matchPassStep_fst_length (src : List JValue) (by_tab : List (String × Nat))
    (field : String) (mt : JValue → JValue → JValue)
    (st : List JValue × List Nat × List (Nat × Nat)) (di : Nat) :
    (matchPassStep src by_tab field mt st di).1.length = st.1.length := by
  rw [matchPassStep]
  split
  · split
    next si hlu =>
      split
      next h => rfl
      next h => exact List.length_set st.1 di _
    next hlu => rfl
  · rfl

theorem zipPassStep_fst_length (src : List JValue) (mt : JValue → JValue → JValue)
    (st : List JValue × List Nat × List (Nat × Nat)) (p : Nat × Nat) :
    (zipPassStep src mt st p).1.length = st.1.length :=
  List.length_set st.1 p.1 _

theorem mergeListsCore_length (fuel : Nat) (dst src : List JValue) :
    (mergeListsCore fuel dst src).1.length = dst.length := by
  cases fuel with
  | zero => rfl
  | succ n =>
    set F : JValue → JValue → JValue := fun a b => merge_translations n a b with hF
    set st1 := (dictIdx dst).foldl
      (matchPassStep src (buildLookup src "_id") "_id" F) (dst, ([], [])) with hst1
    set st2 := (dictIdx dst).foldl
      (matchPassStep src (buildLookup src "name") "name" F) st1 with hst2
    have h1 : st1.1.length = dst.length := by
      rw [hst1]
      exact foldl_inv (fun st => st.1.length = dst.length) _ (dictIdx dst) (dst, ([], [])) rfl
        (fun st b hp => by
          show (matchPassStep src (buildLookup src "_id") "_id" F st b).1.length = dst.length
          rw [matchPassStep_fst_length]
          exact hp)
    have h2 : st2.1.length = dst.length := by
      rw [hst2]
      exact foldl_inv (fun st => st.1.length = dst.length) _ (dictIdx dst) st1 h1
        (fun st b hp => by
          show (matchPassStep src (buildLookup src "name") "name" F st b).1.length = dst.length
          rw [matchPassStep_fst_length]
          exact hp)
    exact foldl_inv (fun st => st.1.length = dst.length) (zipPassStep src F) _ st2 h2
      (fun st b hp => by
        show (zipPassStep src F st b).1.length = dst.length
        rw [zipPassStep_fst_length]
        exact hp)

theorem merge_lists_length (fuel : Nat) (dst src : List JValue) :
    (merge_lists fuel dst src).length = dst.length :=
  mergeListsCore_length fuel dst src

theorem mergeKeyStep_str (skvs : List (String × JValue)) (mt : JValue → JValue → JValue)
    (ml : List JValue → List JValue → List JValue) (k : String) (t : String) :
    mergeKeyStep skvs mt ml (k, JValue.str t) = (k, JValue.str t) := rfl

theorem mergeKeyStep_arr (skvs : List (String × JValue)) (mt : JValue → JValue → JValue)
    (ml : List JValue → List JValue → List JValue) (k : String) (xs : List JValue) :
    (mergeKeyStep skvs mt ml (k, JValue.arr xs)).2 = JValue.arr xs ∨
      ∃ sv, (mergeKeyStep skvs mt ml (k, JValue.arr xs)).2 = JValue.arr (ml xs sv) := by
  rw [mergeKeyStep]
  dsimp only
  cases hlk : List.lookup k skvs with
  | none => exact Or.inl rfl
  | some w =>
    cases w with
    | arr sv => exact Or.inr ⟨sv, rfl⟩
    | obj a => exact Or.inl rfl
    | str a => exact Or.inl rfl
    | num a => exact Or.inl rfl
    | bool a => exact Or.inl rfl
    | null => exact Or.inl rfl

theorem crossStep_arr (srcLists : List (List JValue))
    (ml : List JValue → List JValue → List JValue) (k : String) (dv : List JValue) :
    crossStep srcLists ml (k, JValue.arr dv)
      = (k, JValue.arr (srcLists.foldl (fun cur sl => ml cur sl) dv)) := rfl

theorem crossStep_str (srcLists : List (List JValue))
    (ml : List JValue → List JValue → List JValue) (k : String) (t : String) :
    crossStep srcLists ml (k, JValue.str t) = (k, JValue.str t) := rfl

theorem foldl_ml_length (ml : List JValue → List JValue → List JValue)
    (hml : ∀ a b, (ml a b).length = a.length) (srcLists : List (List JValue)) (dv : List JValue) :
    (srcLists.foldl (fun cur sl => ml cur sl) dv).length = dv.length :=
  foldl_inv (fun cur => cur.length = dv.length) _ srcLists dv rfl
    (fun cur sl hp => by
      show (ml cur sl).length = dv.length
      rw [hml]
      exact hp)

/-- C1 (amended): merge never removes a key or changes a sequence length,
but it can ADD translatable string-valued keys copied from the source, and
it can OVERWRITE a translatable key that held a sequence with a translated
string from the source.  Precisely: after `merge_translations` on two dicts,
(i) every key of the destination is still present; (ii) any key of the
result that was not in the destination is a translatable key other than
`_id` carried as a string by the source; (iii) every key that held a
sequence before now holds either a sequence of the SAME LENGTH, or (when
the key is translatable and the source holds a string for it) that string. -/
theorem merge_preserves_shape_amended (fuel : Nat) (d s : List (String × JValue)) :
    ∃ r, merge_translations fuel (.obj d) (.obj s) = .obj r ∧
      (∀ k, (List.lookup k d).isSome = true → (List.lookup k r).isSome = true) ∧
      (∀ k, (List.lookup k r).isSome = true →
        (List.lookup k d).isSome = true ∨
          (k ∈ TRANSLATABLE_KEYS ∧ k ≠ "_id" ∧ ∃ t, (k, JValue.str t) ∈ s)) ∧
      (∀ k xs, List.lookup k d = some (.arr xs) →
        (∃ ys, List.lookup k r = some (.arr ys) ∧ ys.length = xs.length) ∨
        (∃ t, List.lookup k r = some (.str t) ∧ (k, JValue.str t) ∈ s ∧
          k ∈ TRANSLATABLE_KEYS)) := by
  cases fuel with
  | zero =>
    exact ⟨d, rfl, fun k h => h, fun k h => Or.inl h, fun k xs h => Or.inl ⟨xs, h, rfl⟩⟩
  | succ n =>
    refine ⟨_, merge_translations.eq_2 n d s, ?_, ?_, ?_⟩
    · intro k h
      rw [lookup_map_keyfix _ (fun kv => crossStep_fst _ _ kv) k,
        lookup_map_keyfix _ (fun kv => mergeKeyStep_fst _ _ _ kv) k,
        Option.isSome_map', Option.isSome_map']
      exact copy_mono s d k h
    · intro k h
      rw [lookup_map_keyfix _ (fun kv => crossStep_fst _ _ kv) k,
        lookup_map_keyfix _ (fun kv => mergeKeyStep_fst _ _ _ kv) k,
        Option.isSome_map', Option.isSome_map'] at h
      exact copy_new s d k h
    · intro k xs h
      rw [lookup_map_keyfix _ (fun kv => crossStep_fst _ _ kv) k,
        lookup_map_keyfix _ (fun kv => mergeKeyStep_fst _ _ _ kv) k]
      have hml : ∀ a b, ((fun a b => (mergeListsCore n a b).1) a b).length = a.length :=
        fun a b => mergeListsCore_length n a b
      rcases copy_val s d k _ h with hc | ⟨t, hc, hmem, htr⟩
      · rw [hc]
        rcases mergeKeyStep_arr s (fun a b => merge_translations n a b)
            (fun a b => (mergeListsCore n a b).1) k xs with harr | ⟨sv, harr⟩
        · rw [Option.map_some', Option.map_some', harr, crossStep_arr]
          refine Or.inl ⟨_, rfl, ?_⟩
          exact foldl_ml_length _ hml _ xs
        · rw [Option.map_some', Option.map_some', harr, crossStep_arr]
          refine Or.inl ⟨_, rfl, ?_⟩
          rw [foldl_ml_length _ hml]
          exact mergeListsCore_length n xs sv
      · rw [hc, Option.map_some', Option.map_some', mergeKeyStep_str, crossStep_str]
        exact Or.inr ⟨t, rfl, hmem, htr⟩

/-- Witness for C1 at a concrete input: the destination keeps its `value`
key, gains the translatable `name` key from the source, and its `items`
sequence keeps length 1. -/
theorem merge_preserves_shape_amended_witness :
    (List.lookup "items" [("items", JValue.arr [JValue.null]), ("value", JValue.num 7)]
        = some (.arr [JValue.null])) ∧
      ∃ r, merge_translations 1
          (.obj [("items", JValue.arr [JValue.null]), ("value", JValue.num 7)])
          (.obj [("name", JValue.str "N")]) = .obj r ∧
        (List.lookup "value" r).isSome = true ∧
        ((∃ ys, List.lookup "items" r = some (.arr ys) ∧ ys.length = 1) ∨
          (∃ t, List.lookup "items" r = some (.str t) ∧
            ("items", JValue.str t) ∈ [("name", JValue.str "N")] ∧
            "items" ∈ TRANSLATABLE_KEYS)) := by
  refine ⟨rfl, ?_⟩
  obtain ⟨r, hr, h1, _, h3⟩ := merge_preserves_shape_amended 1
    [("items", JValue.arr [JValue.null]), ("value", JValue.num 7)] [("name", JValue.str "N")]
  exact ⟨r, hr, h1 "value" rfl, h3 "items" [JValue.null] rfl⟩

/-- C1 counterexample: the claim as stated fails — merging
`{"label": [1]}` with `{"label": "X", "name": "N"}` changes the key set
(adds `name`) and replaces the sequence-valued `label` by a string. -/
theorem merge_changes_shape_counterexample :
    merge_translations 1 (.obj [("label", JValue.arr [JValue.num 1])])
        (.obj [("label", JValue.str "X"), ("name", JValue.str "N")]) =
      .obj [("label", JValue.str "X"), ("name", JValue.str "N")] ∧
      (List.lookup "name" [("label", JValue.arr [JValue.num 1])]).isSome = false ∧
      (List.lookup "label" [("label", JValue.str "X"), ("name", JValue.str "N")]
        = some (JValue.str "X")) :=
  ⟨rfl, rfl, rfl⟩

-- ==================== C2: matching is injective on the source side ====================

theorem matchPassStep_cases (src : List JValue) (by_tab : List (String × Nat)) (field : String)
    (mt : JValue → JValue → JValue) (st : List JValue × List Nat × List (Nat × Nat)) (di : Nat) :
    matchPassStep src by_tab field mt st di = st ∨
      ∃ si, si ∉ st.2.1 ∧
        (matchPassStep src by_tab field mt st di).2.1 = st.2.1 ++ [si] ∧
        (matchPassStep src by_tab field mt st di).2.2 = st.2.2 ++ [(di, si)] := by
  rw [matchPassStep]
  split
  · split
    next si hlu =>
      split
      next h => exact Or.inl rfl
      next h => exact Or.inr ⟨si, h, rfl, rfl⟩
    next hlu => exact Or.inl rfl
  · exact Or.inl rfl

theorem foldl_matchPass_inv (src : List JValue) (by_tab : List (String × Nat)) (field : String)
    (mt : JValue → JValue → JValue) :
    ∀ (l : List Nat) (st : List JValue × List Nat × List (Nat × Nat)),
      st.2.2.map Prod.snd = st.2.1 → st.2.1.Nodup →
      ((l.foldl (matchPassStep src by_tab field mt) st).2.2.map Prod.snd
          = (l.foldl (matchPassStep src by_tab field mt) st).2.1 ∧
        (l.foldl (matchPassStep src by_tab field mt) st).2.1.Nodup)
  | [], _, h1, h2 => ⟨h1, h2⟩
  | di :: l, st, h1, h2 => by
    rw [List.foldl_cons]
    rcases matchPassStep_cases src by_tab field mt st di with heq | ⟨si, hsi, hu, hp⟩
    · rw [heq]
      exact foldl_matchPass_inv src by_tab field mt l st h1 h2
    · apply foldl_matchPass_inv src by_tab field mt l _ ?_ ?_
      · rw [hp, hu, List.map_append, h1]
        rfl
      · rw [hu]
        simp [List.nodup_append, h2, hsi]

theorem foldl_zipPass_inv (src : List JValue) (mt : JValue → JValue → JValue) :
    ∀ (zs : List (Nat × Nat)) (st : List JValue × List Nat × List (Nat × Nat)),
      st.2.2.map Prod.snd = st.2.1 → st.2.1.Nodup →
      (zs.map Prod.snd).Nodup → (∀ si ∈ zs.map Prod.snd, si ∉ st.2.1) →
      ((zs.foldl (zipPassStep src mt) st).2.2.map Prod.snd
          = (zs.foldl (zipPassStep src mt) st).2.1 ∧
        (zs.foldl (zipPassStep src mt) st).2.1.Nodup)
  | [], _, h1, h2, _, _ => ⟨h1, h2⟩
  | p :: zs, st, h1, h2, h3, h4 => by
    rw [List.foldl_cons]
    have hmem : p.2 ∉ st.2.1 := h4 p.2 (by simp)
    apply foldl_zipPass_inv src mt zs _ ?_ ?_ ?_ ?_
    · show (st.2.2 ++ [p]).map Prod.snd = st.2.1 ++ [p.2]
      rw [List.map_append, h1]
      rfl
    · show (st.2.1 ++ [p.2]).Nodup
      simp [List.nodup_append, h2, hmem]
    · exact (List.map_cons Prod.snd p zs ▸ h3).of_cons
    · intro si hsi
      show si ∉ st.2.1 ++ [p.2]
      have hmem2 : si ∉ st.2.1 := h4 si (by simp [hsi])
      have hne : si ≠ p.2 := by
        intro he
        subst he
        have := (List.map_cons Prod.snd p zs ▸ h3)
        rw [List.nodup_cons] at this
        exact this.1 hsi
      simp [List.mem_append, hmem2, hne]

theorem map_snd_zip_sublist {α β : Type} :
    ∀ (a : List α) (b : List β), ((a.zip b).map Prod.snd).Sublist b
  | [], _ => by simp
  | _ :: _, [] => by simp
  | x :: a, y :: b => by
    rw [List.zip_cons_cons, List.map_cons]
    exact (map_snd_zip_sublist a b).cons₂ y

/-- C2 (amended): in sequence reconciliation, each source element is
consumed by at most one destination element — the consumed source indices
(`used_src`, which equal the source components of the merge-pair trace) are
pairwise distinct.  A destination element, however, may be merged from
several source elements: pass 2 and pass 3 do not exclude destination
elements already merged, and pass 3 pairs ALL destination mapping-elements,
index-for-index, with the remaining unconsumed source mapping-elements
(bounded by the shorter list) — see the counterexample. -/
theorem merge_lists_source_injective (fuel : Nat) (dst src : List JValue) :
    (mergeListsCore fuel dst src).2.2.map Prod.snd = (mergeListsCore fuel dst src).2.1 ∧
      ((mergeListsCore fuel dst src).2.2.map Prod.snd).Nodup := by
  cases fuel with
  | zero => exact ⟨rfl, List.nodup_nil⟩
  | succ n =>
    set F : JValue → JValue → JValue := fun a b => merge_translations n a b with hF
    set st1 := (dictIdx dst).foldl
      (matchPassStep src (buildLookup src "_id") "_id" F) (dst, ([], [])) with hst1
    set st2 := (dictIdx dst).foldl
      (matchPassStep src (buildLookup src "name") "name" F) st1 with hst2
    set rem_dst := (dictIdx dst).filter (fun di => (st2.1.getD di .null).isObj) with hrd
    set rem_src := (dictIdx src).filter (fun si => si ∉ st2.2.1) with hrs
    obtain ⟨i1a, i1b⟩ := foldl_matchPass_inv src (buildLookup src "_id") "_id" F
      (dictIdx dst) (dst, ([], [])) rfl List.nodup_nil
    obtain ⟨i2a, i2b⟩ := foldl_matchPass_inv src (buildLookup src "name") "name" F
      (dictIdx dst) st1 i1a i1b
    have hsub : ((rem_dst.zip rem_src).map Prod.snd).Sublist rem_src :=
      map_snd_zip_sublist rem_dst rem_src
    have hrsnodup : rem_src.Nodup := by
      rw [hrs]
      exact (List.nodup_range _).filter _ |>.filter _
    have h3 : ((rem_dst.zip rem_src).map Prod.snd).Nodup := hsub.nodup hrsnodup
    have h4 : ∀ si ∈ (rem_dst.zip rem_src).map Prod.snd, si ∉ st2.2.1 := by
      intro si hsi
      have hmem : si ∈ rem_src := hsub.subset hsi
      rw [hrs] at hmem
      have := (List.mem_filter.mp hmem).2
      exact of_decide_eq_true this
    obtain ⟨i3a, i3b⟩ := foldl_zipPass_inv src F (rem_dst.zip rem_src) st2 i2a i2b h3 h4
    exact ⟨i3a, i3a.symm ▸ i3b⟩

/-- C2 counterexample: destination element 0 is merged TWICE — by `_id`
against source 0 in pass 1, then by `name` against source 1 in pass 2 (the
trace records the pairs (0,0) and (0,1), and the merged element carries
fields from both sources). -/
theorem merge_lists_double_merge_counterexample :
    (mergeListsCore 3 [.obj [("_id", .str "x"), ("name", .str "n")]]
        [.obj [("_id", .str "x"), ("description", .str "D")],
         .obj [("name", .str "n"), ("label", .str "B")]]).2.2
      = [(0, 0), (0, 1)] ∧
      (mergeListsCore 3 [.obj [("_id", .str "x"), ("name", .str "n")]]
          [.obj [("_id", .str "x"), ("description", .str "D")],
           .obj [("name", .str "n"), ("label", .str "B")]]).1
        = [.obj [("_id", .str "x"), ("name", .str "n"), ("description", .str "D"),
            ("label", .str "B")]] :=
  ⟨rfl, rfl⟩

-- ==================== C9: reduction emptiness gating ====================

/-- C9: a document with no non-empty `entries` dict anywhere is skipped by
the reduce operation before any companion is produced. -/
theorem reduce_skips_without_entries (d : JValue)
    (h : has_entries_nonempty d = false) : reduce_decision d = none := by
  unfold reduce_decision
  rw [h]
  rfl

/-- Witness for C9 at the concrete document `{"label": "X"}`. -/
theorem reduce_skips_without_entries_witness :
    has_entries_nonempty (.obj [("label", .str "X")]) = false ∧
      reduce_decision (.obj [("label", .str "X")]) = none :=
  ⟨rfl, reduce_skips_without_entries _ rfl⟩

-- ==================== C10: reduce_entries preserves entry keys ====================

/-- C10: when a document's `entries` key holds a dict, `reduce_entries`
keeps exactly the same entry keys, mapping each entry value through
`clean_entry` (entries that reduce to empty or `null` are kept under their
keys, not dropped). -/
theorem reduce_entries_keeps_entry_keys (kvs es : List (String × JValue))
    (h : List.lookup "entries" kvs = some (.obj es)) :
    reduce_entries (.obj kvs) = .obj (reduceObj kvs) ∧
      List.lookup "entries" (reduceObj kvs) =
        some (.obj (es.map fun kv => (kv.1, clean_entry kv.2))) ∧
      (es.map fun kv => (kv.1, clean_entry kv.2)).map Prod.fst = es.map Prod.fst := by
  refine ⟨rfl, lookup_reduceObj kvs es h, ?_⟩
  simp

/-- Witness for C10: the entry `"a"` reduces to `null` yet its key is kept. -/
theorem reduce_entries_keeps_entry_keys_witness :
    List.lookup "entries" [("entries", JValue.obj [("a", JValue.num 5)])] =
        some (.obj [("a", JValue.num 5)]) ∧
      (reduce_entries (.obj [("entries", .obj [("a", .num 5)])]) = .obj (reduceObj [("entries", .obj [("a", .num 5)])]) ∧
        List.lookup "entries" (reduceObj [("entries", .obj [("a", .num 5)])]) =
          some (.obj ([("a", JValue.num 5)].map fun kv => (kv.1, clean_entry kv.2))) ∧
        ([("a", JValue.num 5)].map fun kv => (kv.1, clean_entry kv.2)).map Prod.fst =
          [("a", JValue.num 5)].map Prod.fst) :=
  ⟨rfl, reduce_entries_keeps_entry_keys _ _ rfl⟩
